import Mathlib

/-!
Shallow embedding of the core of `src/RequirementsSearchEngine.js`
(requirements-vector-search): the chunker `splitIntoChunks`, the Excel row
extractor `extractTextFromExcel`, the batched indexing pipeline of
`indexDocument` (modelled as its observable event trace), the hybrid
`search` post-processing, and `getStats`.

JS strings are modelled as `List Char` (`Str`).  JS numbers appearing as
integer indices/counters are modelled as `Nat`/`Int`; similarity scores are
modelled as `ℚ` (only compared, rescaled by 100 and subtracted — never used
with float-specific semantics).  The vector store and the embedding
provider are opaque collaborators and enter as parameters.

Loops with a non-structural step (`i += stride`, `i += batchSize`) are
modelled with a fuel argument instantiated to the length of the traversed
array; since every loop iteration advances by at least one element when the
guard holds, this fuel is an upper bound on the iteration count, and
exhausted fuel coincides with the loop guard failing.  The one loop for
which no fuel suffices — `splitIntoChunks` with `overlap ≥ chunkSize` — is
modelled by `splitIntoChunksFuel`, which returns `none` when the loop is
still running after the given number of iterations.
-/

/-- JS strings as lists of characters. -/
abbrev Str := List Char

/-- Whitespace test used by the JS regex `\s` (ASCII part plus NBSP and the
Unicode line separators; the source only ever splits on these). -/
def isWs (c : Char) : Bool :=
  c = ' ' || c = '\t' || c = '\n' || c = '\r' || c = '\x0b' || c = '\x0c' ||
  c = ' ' || c = ' ' || c = ' ' || c = '﻿'

/-- Worker for `jsSplitWs`, scanning characters left to right.  `acc` holds
the current token reversed; `inRun` records that we are inside a whitespace
run whose preceding token has already been emitted (the greedy regex `\s+`
consumes the whole run as one separator). -/
def jsSplitWsGo : List Char → List Char → Bool → List (List Char)
  | [], acc, _ => [acc.reverse]
  | c :: cs, acc, inRun =>
    if isWs c then
      if inRun then jsSplitWsGo cs acc true
      else acc.reverse :: jsSplitWsGo cs [] true
    else jsSplitWsGo cs (c :: acc) false

/-- Model of JS `text.split(/\s+/)`: tokens between maximal whitespace runs.
Leading / trailing whitespace contributes an empty token at that end, and
`""` splits to `[""]` — exactly the JS semantics. -/
def jsSplitWs (s : Str) : List Str := jsSplitWsGo s [] false

/-- Model of JS `String.prototype.trim`: strip leading and trailing
whitespace. -/
def jsTrim (s : Str) : Str :=
  ((s.dropWhile isWs).reverse.dropWhile isWs).reverse

/-- Model of JS `Array.prototype.join(sep)` on string arrays. -/
def joinSep (sep : Str) : List Str → Str
  | [] => []
  | [w] => w
  | w :: x :: ws => w ++ sep ++ joinSep sep (x :: ws)

/-- Model of JS `String.prototype.toLowerCase` (ASCII range, which is all
the examples exercise). -/
def jsToLower (s : Str) : Str := s.map Char.toLower

/-- Model of JS `Array.prototype.slice(start, stop)` with the JS clamping
rules: negative bounds count from the end, everything is clamped to
`[0, length]`, and an empty list results when `start ≥ stop` after
clamping. -/
def jsSlice (l : List Str) (start stop : Int) : List Str :=
  let n : Int := l.length
  let s := if start < 0 then max (n + start) 0 else min start n
  let e := if stop < 0 then max (n + stop) 0 else min stop n
  (l.take e.toNat).drop s.toNat

/-- A chunk as built by `splitIntoChunks`:
`{ text: chunk.trim(), startIndex: i, wordCount: Math.min(chunkSize, words.length - i) }`. -/
structure Chunk where
  text : Str
  startIndex : Int
  wordCount : Int
deriving Repr, DecidableEq

/-- The `for (let i = 0; i < words.length; i += chunkSize - overlap)` loop of
`splitIntoChunks`.  The guard carries `overlap < chunkSize` — the only case
in which the JS loop terminates (`splitIntoChunksFuel` below covers
arbitrary parameters and shows the loop never finishes otherwise), so the
fuel `words.length` of the top-level call is an upper bound on the
iteration count and never runs out before the loop guard fails. -/
def splitIntoChunksGo (words : List Str) (chunkSize overlap : Nat) :
    Nat → Nat → List Chunk
  | 0, _ => []
  | fuel + 1, i =>
    if i < words.length ∧ overlap < chunkSize then
      let chunk := joinSep [' '] ((words.drop i).take chunkSize)
      (if 0 < (jsTrim chunk).length then
        [⟨jsTrim chunk, (i : Int), ((min chunkSize (words.length - i) : Nat) : Int)⟩]
       else []) ++
        splitIntoChunksGo words chunkSize overlap fuel (i + (chunkSize - overlap))
    else []

/-- `splitIntoChunks(text, chunkSize, overlap)` from
`src/RequirementsSearchEngine.js` (call sites use `chunkSize = 500`,
`overlap = 50`). -/
def splitIntoChunks (text : Str) (chunkSize overlap : Nat) : List Chunk :=
  let words := jsSplitWs text
  splitIntoChunksGo words chunkSize overlap words.length 0

/-- Fuel-indexed model of the raw JS loop of `splitIntoChunks`, faithful for
all parameter values (indices are `Int`, slicing uses the JS clamping
rules, no termination guard).  `none` means the loop is still running after
`fuel` iterations; `some` is the returned chunk array. -/
def splitIntoChunksFuel (words : List Str) (chunkSize overlap : Int) :
    Nat → Int → List Chunk → Option (List Chunk)
  | 0, _, _ => none
  | fuel + 1, i, acc =>
    if i < (words.length : Int) then
      let chunk := joinSep [' '] (jsSlice words i (i + chunkSize))
      let acc2 :=
        if 0 < (jsTrim chunk).length then
          acc ++ [⟨jsTrim chunk, i, min chunkSize ((words.length : Int) - i)⟩]
        else acc
      splitIntoChunksFuel words chunkSize overlap fuel (i + (chunkSize - overlap)) acc2
    else some acc

/-- Ceiling division on `Nat`, used to state chunk/batch counts. -/
def ceilDiv (a b : Nat) : Nat := (a + b - 1) / b

/-- The word offsets the chunker visits: `0, stride, 2·stride, …` while
`< n`. -/
def chunkOffsets (n stride : Nat) : List Nat :=
  (List.range (ceilDiv n stride)).map (· * stride)

/-- Worker for `natDigits`; the fuel only needs to exceed the number of
decimal digits, and `natDigits` passes `n + 1`. -/
def natDigitsGo : Nat → Nat → List Char
  | 0, _ => []
  | fuel + 1, n =>
    if n < 10 then [Char.ofNat (48 + n)]
    else natDigitsGo fuel (n / 10) ++ [Char.ofNat (48 + n % 10)]

/-- Decimal rendering of a natural number, as JS string interpolation
`${n}` renders the (non-negative integer) numbers appearing in IDs. -/
def natDigits (n : Nat) : List Char := natDigitsGo (n + 1) n

/-- Value of a decimal digit string (left fold), inverse to `natDigits`. -/
def digitsVal (l : List Char) : Nat :=
  l.foldl (fun a c => 10 * a + (c.toNat - 48)) 0

/-- JS string interpolation of a possibly-missing number
(`${undefined}` renders as `"undefined"`). -/
def optNatStr : Option Nat → Str
  | some n => natDigits n
  | none => "undefined".toList

/-- JS truthiness of a possibly-missing string (`undefined` and `""` are
falsy). -/
def jsTruthyStr (o : Option Str) : Bool :=
  match o with
  | some s => !s.isEmpty
  | none => false

/-- `x || null` on a possibly-missing string. -/
def jsOrNullStr (o : Option Str) : Option Str :=
  if jsTruthyStr o then o else none

/-- `x || null` on a possibly-missing number (`0` is falsy). -/
def jsOrNullNat (o : Option Nat) : Option Nat :=
  match o with
  | some n => if n = 0 then none else some n
  | none => none

/-- One element of the array `extractTextFromFile` returns: raw text plus
source-location fields (`sheet`/`row`/`rowRange` only for Excel rows). -/
structure ExtractedUnit where
  text : Str
  fileName : Str
  type : Str
  sheet : Option Str
  row : Option Nat
  rowRange : Option Str
deriving Repr, DecidableEq

/-- The chunk ID built inside `indexDocument`:
`data.sheet ? fileName_sheet_rowROW_chunkI : fileName_chunk_I`
(the branch is on JS truthiness of `data.sheet`). -/
def chunkId (u : ExtractedUnit) (i : Nat) : Str :=
  if jsTruthyStr u.sheet then
    u.fileName ++ "_".toList ++ u.sheet.getD [] ++ "_row".toList ++
      optNatStr u.row ++ "_chunk".toList ++ natDigits i
  else
    u.fileName ++ "_chunk_".toList ++ natDigits i

/-- The metadata record `indexDocument` passes to `insertItem`. -/
structure ItemMetadata where
  fileName : Str
  filePath : Str
  chunkIndex : Nat
  text : Str
  wordCount : Int
  preview : Str
  type : Str
  sheet : Option Str
  row : Option Nat
  rowRange : Option Str
  originalTextLength : Nat
  chunkStartIndex : Int
deriving Repr, DecidableEq

/-- Builds the metadata for one chunk, mirroring the object literal in
`indexDocument` (`preview: chunk.text.substring(0, 150) + '...'`). -/
def mkItemMetadata (u : ExtractedUnit) (filePath : Str) (idx : Nat) (c : Chunk) :
    ItemMetadata where
  fileName := u.fileName
  filePath := filePath
  chunkIndex := idx
  text := c.text
  wordCount := c.wordCount
  preview := c.text.take 150 ++ "...".toList
  type := u.type
  sheet := jsOrNullStr u.sheet
  row := jsOrNullNat u.row
  rowRange := jsOrNullStr u.rowRange
  originalTextLength := u.text.length
  chunkStartIndex := c.startIndex

/-- Observable effects of `indexDocument`: store writes and the rate-limit
delays (`setTimeout(resolve, 100)`). -/
inductive IndexEv where
  | insert (id : Str) (vector : List ℚ) (meta : ItemMetadata)
  | delay (ms : Nat)
deriving Repr, DecidableEq

/-- Whether an event is a rate-limit delay. -/
def IndexEv.isDelay : IndexEv → Bool
  | .delay _ => true
  | _ => false

/-- The `for (let i = 0; i < chunks.length; i += batchSize)` loop of
`indexDocument` with `batchSize = 5`: emits the inserts of each batch (the
batch is awaited as a whole; the claims here are count- and set-based, so
the concurrent fan-out inside one batch is listed in array order), then a
100 ms delay when `i + batchSize < chunks.length`, i.e. when more chunks
remain.  `rem` is `chunks.slice(i)`; every iteration consumes at least one
element of it, so the fuel `chunks.length` of the top-level call never runs
out before the loop guard `i < chunks.length` (= `rem ≠ []`) fails. -/
def processBatchesGo (embed : Str → List ℚ) (u : ExtractedUnit) (filePath : Str) :
    Nat → List Chunk → Nat → List IndexEv
  | 0, _, _ => []
  | fuel + 1, rem, i =>
    if rem.isEmpty then []
    else
      let batch := rem.take 5
      batch.enum.map (fun p =>
        IndexEv.insert (chunkId u (i + p.1)) (embed p.2.text)
          (mkItemMetadata u filePath (i + p.1) p.2)) ++
      (if 5 < rem.length then [IndexEv.delay 100] else []) ++
      processBatchesGo embed u filePath fuel (rem.drop 5) (i + 5)

/-- Event trace of `indexDocument` for one extracted unit: chunk the text
with the default parameters, then run the batch loop. -/
def indexUnitEvents (embed : Str → List ℚ) (filePath : Str) (u : ExtractedUnit) :
    List IndexEv :=
  let chunks := splitIntoChunks u.text 500 50
  processBatchesGo embed u filePath chunks.length chunks 0

/-- Event trace of one `indexDocument(filePath)` run: the per-unit traces of
`extractedData` in order (`for (const data of extractedData)`). -/
def indexDocumentEvents (embed : Str → List ℚ) (filePath : Str)
    (units : List ExtractedUnit) : List IndexEv :=
  units.flatMap (indexUnitEvents embed filePath)

/-- The IDs written by a trace, in order. -/
def eventIds (evs : List IndexEv) : List Str :=
  evs.filterMap fun e =>
    match e with
    | .insert id _ _ => some id
    | .delay _ => none

/-- One row record produced by `extractTextFromExcel`. -/
structure ExcelRow where
  text : Str
  sheet : Str
  row : Nat
  rowRange : Str
deriving Repr, DecidableEq

/-- `${row + 1}:${row + 1}` (the `rowRange` field). -/
def rangeStr (n : Nat) : Str := natDigits n ++ ":".toList ++ natDigits n

/-- The row loop of `extractTextFromExcel` over one worksheet.  A cell is
`Option Str`: `some v` iff the cell exists and `cell.v` is truthy (the
`if (cell && cell.v)` test), carrying `String(cell.v)`; `rowData` keeps the
truthy cells of the row in column order, and empty rows are skipped.
`row` is the current 0-based row index (starting at `range.s.r`). -/
def extractRowsGo (name : Str) : List (List (Option Str)) → Nat → List ExcelRow
  | [], _ => []
  | cells :: rest, row =>
    let rowData := cells.reduceOption
    (if rowData.isEmpty then []
     else [⟨joinSep " | ".toList rowData, name, row + 1, rangeStr (row + 1)⟩]) ++
      extractRowsGo name rest (row + 1)

/-- `extractTextFromExcel`: iterate the workbook's sheets in order; each
sheet is its name, the starting row index `range.s.r` of its used range,
and its rows of cells. -/
def extractTextFromExcel (wb : List (Str × Nat × List (List (Option Str)))) :
    List ExcelRow :=
  wb.flatMap fun s => extractRowsGo s.1 s.2.2 s.2.1

/-- How `extractTextFromFile` wraps an Excel row into an extracted unit
(`{ ...item, fileName, type: 'excel' }`). -/
def excelUnit (fileName : Str) (r : ExcelRow) : ExtractedUnit :=
  ⟨r.text, fileName, "excel".toList, some r.sheet, some r.row, some r.rowRange⟩

/-- An item as stored in / returned by the vector store. -/
structure IndexItem where
  id : Str
  vector : List ℚ
  metadata : ItemMetadata
deriving Repr, DecidableEq

/-- One raw result of `index.queryItems`: a similarity score and the stored
item. -/
structure QueryHit where
  score : ℚ
  item : IndexItem
deriving Repr, DecidableEq

/-- Model of JS `Math.round` on the exact rational value
(round half toward positive infinity). -/
def jsRound (q : ℚ) : Int := ⌊q + 1 / 2⌋

/-- One element of the array `search` returns. -/
structure ProcessedResult where
  score : ℚ
  fileName : Str
  text : Str
  preview : Str
  chunkIndex : Nat
  relevancePercentage : Int
  type : Str
  sheet : Option Str
  row : Option Nat
  rowRange : Option Str
  textMatches : List Str
  hasDirectMatch : Bool
  textMatchScore : ℚ
deriving Repr, DecidableEq

/-- The per-candidate processing of `search`.  The JS object carries
`textMatches` / `hasDirectMatch` / `textMatchScore` only when
`includeTextMatches` is set; they are modelled with defaults
`[] / false / 0` otherwise (nothing downstream reads them in that case).
`textMatches` collects the lowercased query tokens of length `> 2` that
occur as substrings of the lowercased chunk text, in token order;
`hasDirectMatch` is set iff at least one token was pushed;
`textMatchScore` divides by the unfiltered token count
`query.split(/\s+/).length` (never `0`: a split is never empty). -/
def processResult (query : Str) (includeTextMatches : Bool) (r : QueryHit) :
    ProcessedResult :=
  let textMatches :=
    if includeTextMatches then
      (jsSplitWs (jsToLower query)).filter
        (fun w => decide (2 < w.length ∧ w <:+: jsToLower r.item.metadata.text))
    else []
  { score := r.score
    fileName := r.item.metadata.fileName
    text := r.item.metadata.text
    preview := r.item.metadata.preview
    chunkIndex := r.item.metadata.chunkIndex
    relevancePercentage := jsRound (r.score * 100)
    type := r.item.metadata.type
    sheet := r.item.metadata.sheet
    row := r.item.metadata.row
    rowRange := r.item.metadata.rowRange
    textMatches := textMatches
    hasDirectMatch := !textMatches.isEmpty
    textMatchScore :=
      if includeTextMatches then
        (textMatches.length : ℚ) / ((jsSplitWs query).length : ℚ)
      else 0 }

/-- The comparator of `search`'s hybrid sort, as a `Bool`-valued
"a sorts no later than b": the JS comparator returns a value `≤ 0` exactly
when this is `true`.  First direct-match flag descending, then
`textMatchScore` descending, then raw score descending. -/
def resultLe (a b : ProcessedResult) : Bool :=
  if a.hasDirectMatch = b.hasDirectMatch then
    if a.textMatchScore = b.textMatchScore then decide (b.score ≤ a.score)
    else decide (b.textMatchScore < a.textMatchScore)
  else a.hasDirectMatch

/-- The post-processing pipeline of `search(query, topK, options)` on the
candidate list `hits` returned by `index.queryItems`: map, filter by
`minScore` (only when `minScore > 0`), hybrid sort (only when
`includeTextMatches`; JS `Array.prototype.sort` is stable and the
comparator is a total preorder, so it is `List.mergeSort`), truncate to
`topK`. -/
def search (query : Str) (topK : Nat) (includeTextMatches : Bool) (minScore : ℚ)
    (hits : List QueryHit) : List ProcessedResult :=
  let processedResults := hits.map (processResult query includeTextMatches)
  let filteredResults :=
    if 0 < minScore then processedResults.filter (fun r => decide (minScore ≤ r.score))
    else processedResults
  let sortedResults :=
    if includeTextMatches then filteredResults.mergeSort resultLe
    else filteredResults
  sortedResults.take topK

/-- A store failure, carrying `error.message`. -/
structure StoreError where
  msg : Str
deriving Repr, DecidableEq

/-- `initialize()`: when not yet initialized, `createIndex()` failures whose
message contains "already exists" are swallowed; others propagate. -/
def engineInitialize (isInitialized : Bool) (createRes : Except StoreError Unit) :
    Except StoreError Unit :=
  if isInitialized then .ok ()
  else
    match createRes with
    | .ok _ => .ok ()
    | .error e =>
      if "already exists".toList <:+: e.msg then .ok () else .error e

/-- First-occurrence deduplication, as `[...new Set(xs)]`. -/
def jsSetDedup : List Str → List Str :=
  go []
where
  /-- Worker carrying the set of names already seen. -/
  go (seen : List Str) : List Str → List Str
    | [] => []
    | x :: xs => if x ∈ seen then go seen xs else x :: go (x :: seen) xs

/-- The statistics object `getStats` returns. -/
structure EngineStats where
  totalChunks : Nat
  totalDocuments : Nat
  documents : List Str
  indexPath : Str
deriving Repr, DecidableEq

/-- `getStats()`: `initialize()` runs outside the `try`, so its failures
propagate; any `listItems()` failure is caught and the zero-valued
statistics are returned. -/
def getStats (isInitialized : Bool) (createRes : Except StoreError Unit)
    (listRes : Except StoreError (List IndexItem)) (indexPath : Str) :
    Except StoreError EngineStats :=
  match engineInitialize isInitialized createRes with
  | .error e => .error e
  | .ok _ =>
    match listRes with
    | .ok items =>
      let fileNames := jsSetDedup (items.map (fun it => it.metadata.fileName))
      .ok ⟨items.length, fileNames.length, fileNames, indexPath⟩
    | .error _ => .ok ⟨0, 0, [], indexPath⟩

/-- The chunk the loop pushes at word offset `o`: text is the joined word
slice `[o, o + chunkSize)` (the `trim` is the identity when all the words
are nonempty and whitespace-free), `startIndex = o`,
`wordCount = min(chunkSize, n - o)`. -/
def mkChunkAt (words : List Str) (chunkSize o : Nat) : Chunk :=
  ⟨joinSep [' '] ((words.drop o).take chunkSize), (o : Int),
    ((min chunkSize (words.length - o) : Nat) : Int)⟩


/-! ### Concrete sample data used by witnesses and counterexamples -/

/-- A stored item's metadata with the given file name and chunk text, other
fields as the pipeline would fill them for a plain-text file. -/
def metaWithText (name t : Str) : ItemMetadata :=
  ⟨name, "p".toList, 0, t, 1, t.take 150 ++ "...".toList, "text".toList,
    none, none, none, t.length, 0⟩

/-- A query hit with the given score and chunk text. -/
def hitScore (q : ℚ) (t : Str) : QueryHit :=
  ⟨q, ⟨"f.txt_chunk_0".toList, [], metaWithText "f.txt".toList t⟩⟩

/-- A plain-text extracted unit (no sheet/row), as `extractTextFromFile`
produces for `.txt`/`.md`/`.pdf`/`.docx` files. -/
def textUnit (name t : Str) : ExtractedUnit := ⟨t, name, "text".toList, none, none, none⟩

/-- A text of exactly 560 single-letter words (the spec's second chunking
example). -/
def text560 : Str := joinSep [' '] (List.replicate 560 ['a'])

/-- A text of exactly 500 single-letter words (the spec's first chunking
example). -/
def text500 : Str := joinSep [' '] (List.replicate 500 ['a'])

/-- The concrete query of the spec's example. -/
def uaQuery : Str := "user authentication".toList

/-- A hit whose chunk text contains both example query tokens. -/
def uaHit : QueryHit := hitScore 1 "the user login authentication flow".toList


example : jsSplitWs "a  b c".toList = ["a".toList, "b".toList, "c".toList] := by decide
example : jsSplitWs " ".toList = [[], []] := by decide
example : jsSplitWs "".toList = [[]] := by decide
example : jsSplitWs " a ".toList = [[], "a".toList, []] := by decide
example : jsTrim "  ab ".toList = "ab".toList := by decide
example : splitIntoChunks " ".toList 500 50 = [] := by decide
example : splitIntoChunks "a b c".toList 2 1 =
    [⟨"a b".toList, 0, 2⟩, ⟨"b c".toList, 1, 2⟩, ⟨"c".toList, 2, 1⟩] := by decide
example : splitIntoChunksFuel ["a".toList] 500 500 5 0 [] = none := by decide
example : splitIntoChunksFuel ["a".toList, "b".toList] 500 50 5 0 [] =
    some [⟨"a b".toList, 0, 2⟩] := by decide
example : chunkOffsets 560 450 = [0, 450] := by decide
example : natDigits 560 = "560".toList := by decide
example : natDigits 0 = "0".toList := by decide
example :
    chunkId ⟨"x".toList, "f.xlsx".toList, "excel".toList, some "S1".toList, some 4, none⟩ 2 =
      "f.xlsx_S1_row4_chunk2".toList := by decide
example :
    chunkId ⟨"x".toList, "a.pdf".toList, "pdf".toList, none, none, none⟩ 3 =
      "a.pdf_chunk_3".toList := by decide
example :
    extractTextFromExcel [("S".toList, 0, [[none, some "a".toList], [], [some "b".toList]])] =
      [⟨"a".toList, "S".toList, 1, "1:1".toList⟩, ⟨"b".toList, "S".toList, 3, "3:3".toList⟩] := by
  decide
example : jsSetDedup ["a".toList, "b".toList, "a".toList] = ["a".toList, "b".toList] := by decide

/-! ### Words produced by the splitter -/

theorem jsSplitWsGo_no_ws : ∀ (l acc : List Char) (inRun : Bool),
    (∀ c ∈ acc, isWs c = false) →
    ∀ w ∈ jsSplitWsGo l acc inRun, ∀ c ∈ w, isWs c = false := by
  intro l
  induction l with
  | nil =>
    intro acc inRun hacc w hw c hc
    simp only [jsSplitWsGo, List.mem_singleton] at hw
    subst hw
    exact hacc c (List.mem_reverse.mp hc)
  | cons a t ih =>
    intro acc inRun hacc w hw c hc
    simp only [jsSplitWsGo] at hw
    by_cases hws : isWs a = true
    · rw [if_pos hws] at hw
      cases inRun with
      | true =>
        rw [if_pos rfl] at hw
        exact ih acc true hacc w hw c hc
      | false =>
        rw [if_neg (by simp)] at hw
        rcases List.mem_cons.mp hw with h1 | h2
        · subst h1
          exact hacc c (List.mem_reverse.mp hc)
        · exact ih [] true (by simp) w h2 c hc
    · rw [if_neg hws] at hw
      refine ih (a :: acc) false ?_ w hw c hc
      intro x hx
      rcases List.mem_cons.mp hx with h1 | h2
      · subst h1
        exact Bool.eq_false_iff.mpr hws
      · exact hacc x h2

theorem jsSplitWs_no_ws (s : Str) : ∀ w ∈ jsSplitWs s, ∀ c ∈ w, isWs c = false :=
  jsSplitWsGo_no_ws s [] false (by simp)

theorem jsSplitWsGo_all_ws : ∀ (l : List Char) (inRun : Bool),
    (∀ c ∈ l, isWs c = true) → ∀ w ∈ jsSplitWsGo l [] inRun, w = [] := by
  intro l
  induction l with
  | nil =>
    intro inRun _ w hw
    simp only [jsSplitWsGo, List.reverse_nil, List.mem_singleton] at hw
    exact hw
  | cons a t ih =>
    intro inRun hall w hw
    simp only [jsSplitWsGo] at hw
    rw [if_pos (hall a (by simp))] at hw
    cases inRun with
    | true =>
      rw [if_pos rfl] at hw
      exact ih true (fun c hc => hall c (by simp [hc])) w hw
    | false =>
      rw [if_neg (by simp)] at hw
      rcases List.mem_cons.mp hw with h1 | h2
      · simpa using h1
      · exact ih true (fun c hc => hall c (by simp [hc])) w h2

/-! ### Joining and trimming windows of non-whitespace words -/

theorem joinSep_head (l : List Str) (hl : l ≠ []) (hw : ∀ w ∈ l, w ≠ []) :
    ∃ c t, joinSep [' '] l = c :: t ∧ ∃ w ∈ l, c ∈ w := by
  cases l with
  | nil => exact absurd rfl hl
  | cons w rest =>
    cases hww : w with
    | nil => exact absurd hww (hw w (by simp))
    | cons c w2 =>
      subst hww
      cases rest with
      | nil =>
        exact ⟨c, w2, rfl, c :: w2, by simp, by simp⟩
      | cons x rs =>
        refine ⟨c, w2 ++ [' '] ++ joinSep [' '] (x :: rs), ?_, c :: w2, by simp, by simp⟩
        simp [joinSep]

theorem joinSep_getLast (l : List Str) (hl : l ≠ []) (hw : ∀ w ∈ l, w ≠ []) :
    ∃ c, (joinSep [' '] l).getLast? = some c ∧ ∃ w ∈ l, c ∈ w := by
  induction l with
  | nil => exact absurd rfl hl
  | cons w rest ih =>
    cases rest with
    | nil =>
      have hwne : w ≠ [] := hw w (by simp)
      refine ⟨w.getLast hwne, ?_, w, by simp, List.getLast_mem hwne⟩
      rw [show joinSep [' '] [w] = w from rfl]
      exact List.getLast?_eq_getLast_of_ne_nil hwne
    | cons x rs =>
      obtain ⟨c, hc, w2, hw2, hcw⟩ := ih (by simp)
        (fun v hv => hw v (List.mem_cons_of_mem w hv))
      have hJ : joinSep [' '] (x :: rs) ≠ [] := by
        intro h0
        rw [h0] at hc
        simp at hc
      refine ⟨c, ?_, w2, List.mem_cons_of_mem w hw2, hcw⟩
      rw [show joinSep [' '] (w :: x :: rs) = w ++ [' '] ++ joinSep [' '] (x :: rs)
        from rfl]
      rw [List.getLast?_append_of_ne_nil _ hJ]
      exact hc

theorem jsTrim_eq_self (s : Str)
    (hhead : ∀ c, s.head? = some c → isWs c = false)
    (hlast : ∀ c, s.getLast? = some c → isWs c = false) :
    jsTrim s = s := by
  unfold jsTrim
  have h1 : s.dropWhile isWs = s := by
    cases s with
    | nil => rfl
    | cons a t =>
      rw [List.dropWhile_cons, if_neg (by simp [hhead a rfl])]
  rw [h1]
  have h2 : s.reverse.dropWhile isWs = s.reverse := by
    cases hs : s.reverse with
    | nil => rfl
    | cons a t =>
      have ha : s.getLast? = some a := by
        rw [← List.head?_reverse, hs]
        rfl
      rw [List.dropWhile_cons, if_neg (by simp [hlast a ha])]
  rw [h2, List.reverse_reverse]

theorem jsTrim_joinSep (l : List Str) (hl : l ≠ []) (hw : ∀ w ∈ l, w ≠ [])
    (hws : ∀ w ∈ l, ∀ c ∈ w, isWs c = false) :
    jsTrim (joinSep [' '] l) = joinSep [' '] l ∧ 0 < (joinSep [' '] l).length := by
  obtain ⟨c, t, heq, w, hwm, hcw⟩ := joinSep_head l hl hw
  obtain ⟨c2, hc2, w2, hw2m, hcw2⟩ := joinSep_getLast l hl hw
  constructor
  · apply jsTrim_eq_self
    · intro c0 hc0
      rw [heq] at hc0
      have hcc : c = c0 := by simpa using hc0
      exact hcc ▸ hws w hwm c hcw
    · intro c0 hc0
      have hcc : c2 = c0 := Option.some.inj (hc2.symm.trans hc0)
      exact hcc ▸ hws w2 hw2m c2 hcw2
  · rw [heq]
    simp

theorem joinSep_all_empty (l : List Str) (hw : ∀ w ∈ l, w = []) :
    ∀ c ∈ joinSep [' '] l, c = ' ' := by
  induction l with
  | nil => simp [joinSep]
  | cons w rest ih =>
    cases rest with
    | nil =>
      intro c hc
      rw [show joinSep [' '] [w] = w from rfl, hw w (by simp)] at hc
      simp at hc
    | cons x rs =>
      intro c hc
      rw [show joinSep [' '] (w :: x :: rs) = w ++ [' '] ++ joinSep [' '] (x :: rs)
        from rfl, hw w (by simp)] at hc
      simp only [List.nil_append, List.cons_append, List.mem_cons] at hc
      rcases hc with h | h
      · exact h
      · exact ih (fun v hv => hw v (List.mem_cons_of_mem w hv)) c h

theorem jsTrim_all_ws (s : Str) (h : ∀ c ∈ s, isWs c = true) : jsTrim s = [] := by
  unfold jsTrim
  rw [List.dropWhile_eq_nil_iff.mpr h]
  rfl

/-! ### Arithmetic facts about `ceilDiv` -/

theorem ceilDiv_eq_zero (s : Nat) (hs : 0 < s) : ceilDiv 0 s = 0 := by
  unfold ceilDiv
  exact Nat.div_eq_of_lt (by omega)

theorem ceilDiv_step (m s : Nat) (hs : 0 < s) (hm : 0 < m) :
    ceilDiv m s = ceilDiv (m - s) s + 1 := by
  unfold ceilDiv
  by_cases hms : m ≤ s
  · have h1 : m - s = 0 := by omega
    rw [h1]
    have h2 : (0 + s - 1) / s = 0 := Nat.div_eq_of_lt (by omega)
    rw [h2]
    have h3 : (m + s - 1) / s = 1 := by
      have hlow : 1 ≤ (m + s - 1) / s := by
        rw [Nat.le_div_iff_mul_le hs]
        omega
      have hhigh : (m + s - 1) / s < 2 := by
        rw [Nat.div_lt_iff_lt_mul hs]
        omega
      omega
    omega
  · have h1 : m + s - 1 = (m - s + s - 1) + s := by omega
    rw [h1, Nat.add_div_right _ hs]

/-! ### The chunker's exact output on well-formed word lists -/

theorem splitIntoChunksGo_all_empty (words : List Str) (chunkSize overlap : Nat)
    (hw : ∀ w ∈ words, w = []) :
    ∀ fuel i, splitIntoChunksGo words chunkSize overlap fuel i = [] := by
  intro fuel
  induction fuel with
  | zero => intro i; rfl
  | succ fuel ih =>
    intro i
    simp only [splitIntoChunksGo]
    by_cases hg : i < words.length ∧ overlap < chunkSize
    · rw [if_pos hg]
      have htr : jsTrim (joinSep [' '] ((words.drop i).take chunkSize)) = [] := by
        apply jsTrim_all_ws
        intro c hc
        rw [joinSep_all_empty _
          (fun w hmem => hw w (List.mem_of_mem_drop (List.mem_of_mem_take hmem)))
          c hc]
        rfl
      rw [htr]
      simp [ih]
    · rw [if_neg hg]

theorem splitIntoChunksGo_eq_map (words : List Str) (chunkSize overlap : Nat)
    (hov : overlap < chunkSize) (hne : ∀ w ∈ words, w ≠ [])
    (hws : ∀ w ∈ words, ∀ c ∈ w, isWs c = false) :
    ∀ (fuel i : Nat), words.length ≤ i + fuel * (chunkSize - overlap) →
      splitIntoChunksGo words chunkSize overlap fuel i =
        ((List.range (ceilDiv (words.length - i) (chunkSize - overlap))).map
          (fun j => i + j * (chunkSize - overlap))).map (mkChunkAt words chunkSize) := by
  intro fuel
  induction fuel with
  | zero =>
    intro i hfuel
    have h0 : words.length - i = 0 := by omega
    rw [h0, ceilDiv_eq_zero _ (by omega)]
    rfl
  | succ fuel ih =>
    intro i hfuel
    by_cases hi : i < words.length
    · have hguard : i < words.length ∧ overlap < chunkSize := ⟨hi, hov⟩
      simp only [splitIntoChunksGo, if_pos hguard]
      have hwne : (words.drop i).take chunkSize ≠ [] := by
        rw [← List.length_pos, List.length_take, List.length_drop]
        omega
      have hsub : ∀ w ∈ (words.drop i).take chunkSize, w ∈ words :=
        fun w hw0 => List.mem_of_mem_drop (List.mem_of_mem_take hw0)
      obtain ⟨htrim, hpos⟩ := jsTrim_joinSep _ hwne
        (fun w hw0 => hne w (hsub w hw0)) (fun w hw0 => hws w (hsub w hw0))
      rw [htrim, if_pos hpos]
      have hmul : (fuel + 1) * (chunkSize - overlap)
          = fuel * (chunkSize - overlap) + (chunkSize - overlap) := by ring
      rw [ih (i + (chunkSize - overlap)) (by omega)]
      have hmpos : 0 < words.length - i := by omega
      rw [ceilDiv_step (words.length - i) _ (by omega) hmpos]
      rw [List.range_succ_eq_map]
      simp only [List.map_cons, List.map_map, Nat.zero_mul, Nat.add_zero]
      rw [show mkChunkAt words chunkSize i =
        ⟨joinSep [' '] ((words.drop i).take chunkSize), (i : Int),
          ((min chunkSize (words.length - i) : Nat) : Int)⟩ from rfl]
      have harg : words.length - i - (chunkSize - overlap)
          = words.length - (i + (chunkSize - overlap)) := by omega
      rw [harg]
      rw [List.singleton_append]
      congr 1
      apply List.map_congr_left
      intro j _
      simp only [Function.comp]
      congr 1
      rw [show Nat.succ j = j + 1 from rfl]
      ring
    · have hguard : ¬(i < words.length ∧ overlap < chunkSize) := fun h => hi h.1
      simp only [splitIntoChunksGo, if_neg hguard]
      have h0 : words.length - i = 0 := by omega
      rw [h0, ceilDiv_eq_zero _ (by omega)]
      rfl

/-! ### C1 / C3 — chunk windows and chunk counts -/

/-- C1 counterexample: the claim as stated quantifies over every text whose
whitespace-split word list is nonempty, but for the text `" "` (word list
`["", ""]`, so `n = 2 > 0`, with the default `chunkSize = 500`,
`overlap = 50`, stride `450 > 0`) the claim predicts a chunk at offset 0
with `wordCount = 2`, while the code's `trim` check discards the
whitespace-only window and returns no chunks at all. -/
theorem c1_counterexample :
    (jsSplitWs " ".toList).length = 2 ∧ 0 < 500 - 50 ∧
      splitIntoChunks " ".toList 500 50 = [] := by
  refine ⟨by decide, by decide, by decide⟩

/-- C1 (amended: the split word list must consist of nonempty words, i.e.
the text has no leading/trailing whitespace — JS `split` otherwise
contributes empty boundary tokens whose windows can be trimmed away): for
`overlap < chunkSize` the chunker emits exactly one chunk per offset
`0, stride, 2·stride, …` below `n`; the chunk at offset `o` has text the
joined word slice `[o, min(o + chunkSize, n))`, `startIndex = o` and
`wordCount = min(chunkSize, n - o)`. -/
theorem c1_chunk_windows (text : Str) (chunkSize overlap : Nat)
    (hov : overlap < chunkSize) (hne : ∀ w ∈ jsSplitWs text, w ≠ []) :
    splitIntoChunks text chunkSize overlap =
      (chunkOffsets (jsSplitWs text).length (chunkSize - overlap)).map
        (mkChunkAt (jsSplitWs text) chunkSize) := by
  unfold splitIntoChunks chunkOffsets
  rw [splitIntoChunksGo_eq_map (jsSplitWs text) chunkSize overlap hov hne
    (jsSplitWs_no_ws text) (jsSplitWs text).length 0 ?hfuel]
  case hfuel =>
    have h1 : (jsSplitWs text).length * 1 ≤
        (jsSplitWs text).length * (chunkSize - overlap) :=
      Nat.mul_le_mul_left _ (by omega)
    omega
  rw [Nat.sub_zero]
  congr 1
  apply List.map_congr_left
  intro j _
  omega

set_option maxRecDepth 40000 in
/-- C1 witness: the 560-word text with `chunkSize = 500`, `overlap = 50`
chunks exactly at offsets `[0, 450]`, and the second chunk has
`wordCount = 110` (and the first 500). -/
theorem c1_chunk_windows_witness :
    (splitIntoChunks text560 500 50 =
        (chunkOffsets (jsSplitWs text560).length 450).map
          (mkChunkAt (jsSplitWs text560) 500)) ∧
      (splitIntoChunks text560 500 50).map Chunk.startIndex = [0, 450] ∧
      (splitIntoChunks text560 500 50).map Chunk.wordCount = [500, 110] :=
  ⟨c1_chunk_windows text560 500 50 (by norm_num) (by decide), by decide, by decide⟩

set_option maxRecDepth 40000 in
/-- C3 counterexample: the claimed count `ceil((n - overlap) / stride)` is
wrong.  A text of exactly 500 words with `chunkSize = 500`, `overlap = 50`
yields `ceil((500 - 50) / 450) = 1` per the claim (and the spec's example
says "1 chunk"), but the code emits 2 chunks: the loop also runs at offset
450 (`450 < 500`), producing a trailing 50-word chunk. -/
theorem c3_counterexample :
    (jsSplitWs text500).length = 500 ∧
      ceilDiv ((jsSplitWs text500).length - 50) (500 - 50) = 1 ∧
      (splitIntoChunks text500 500 50).length = 2 := by
  refine ⟨by decide, by decide, by decide⟩

/-- C3 (amended): for `overlap < chunkSize`, a text splitting into `n`
nonempty words yields exactly `ceil(n / stride)` chunks, and a text with no
words at all (every split token empty, i.e. the text is empty or
whitespace-only) yields zero chunks. -/
theorem c3_chunk_count (text : Str) (chunkSize overlap : Nat)
    (hov : overlap < chunkSize) :
    ((∀ w ∈ jsSplitWs text, w ≠ []) →
      (splitIntoChunks text chunkSize overlap).length =
        ceilDiv (jsSplitWs text).length (chunkSize - overlap)) ∧
    ((∀ c ∈ text, isWs c = true) → splitIntoChunks text chunkSize overlap = []) := by
  constructor
  · intro hne
    rw [c1_chunk_windows text chunkSize overlap hov hne]
    unfold chunkOffsets
    rw [List.length_map, List.length_map, List.length_range]
  · intro hws
    unfold splitIntoChunks
    exact splitIntoChunksGo_all_empty _ _ _
      (jsSplitWsGo_all_ws text false hws) _ _

set_option maxRecDepth 40000 in
/-- C3 witness: 560 nonempty words give `ceil(560/450) = 2` chunks; the
whitespace-only text `" "` gives zero chunks. -/
theorem c3_chunk_count_witness :
    ((splitIntoChunks text560 500 50).length =
        ceilDiv (jsSplitWs text560).length (500 - 50)) ∧
      splitIntoChunks " ".toList 500 50 = [] :=
  ⟨(c3_chunk_count text560 500 50 (by norm_num)).1 (by decide),
    (c3_chunk_count " ".toList 500 50 (by norm_num)).2 (by decide)⟩

/-! ### Generic helper lemmas -/

theorem jsSplitWsGo_ne_nil : ∀ (l acc : List Char) (inRun : Bool),
    jsSplitWsGo l acc inRun ≠ [] := by
  intro l
  induction l with
  | nil => intro acc inRun; simp [jsSplitWsGo]
  | cons c cs ih =>
    intro acc inRun
    simp only [jsSplitWsGo]
    by_cases hws : isWs c
    · simp only [hws, if_true]
      cases inRun <;> simp [ih]
    · simp [hws, ih]

theorem jsSplitWs_length_pos (s : Str) : 0 < (jsSplitWs s).length :=
  List.length_pos.mpr (jsSplitWsGo_ne_nil s [] false)

theorem processBatchesGo_nil (embed : Str → List ℚ) (u : ExtractedUnit) (fp : Str)
    (fuel i : Nat) : processBatchesGo embed u fp fuel [] i = [] := by
  cases fuel <;> rfl

/-! ### C2 — `splitIntoChunks` with `overlap ≥ chunkSize` never terminates
(and in particular never raises a `ConfigurationError`, which does not
exist anywhere in the code). -/

theorem splitIntoChunksFuel_none (words : List Str) (chunkSize overlap : Int)
    (hov : chunkSize ≤ overlap) :
    ∀ (fuel : Nat) (i : Int) (acc : List Chunk), i < (words.length : Int) →
      splitIntoChunksFuel words chunkSize overlap fuel i acc = none := by
  intro fuel
  induction fuel with
  | zero => intro i acc _; rfl
  | succ fuel ih =>
    intro i acc hi
    simp only [splitIntoChunksFuel, if_pos hi]
    exact ih _ _ (by omega)

/-- C2: the claim that `splitIntoChunks` fails with a `ConfigurationError`
when `overlap ≥ chunkSize` does not match the code: there is no parameter
validation at all, and the loop `i += chunkSize - overlap` then never makes
progress past the guard `i < words.length` (a word list is never empty), so
the call never returns — for every iteration bound `fuel` the loop is still
running.  No error is ever thrown. -/
theorem c2_no_configuration_error (text : Str) (chunkSize overlap : Int)
    (hov : chunkSize ≤ overlap) (fuel : Nat) :
    splitIntoChunksFuel (jsSplitWs text) chunkSize overlap fuel 0 [] = none :=
  splitIntoChunksFuel_none _ _ _ hov fuel 0 []
    (by exact_mod_cast jsSplitWs_length_pos text)

/-- C2 witness: the divergence at the concrete failing input
`splitIntoChunks("a b c", 500, 500)`. -/
theorem c2_no_configuration_error_witness :
    splitIntoChunksFuel (jsSplitWs "a b c".toList) 500 500 1000 0 [] = none :=
  c2_no_configuration_error "a b c".toList 500 500 (by norm_num) 1000

/-! ### C4 — the `minScore` filter -/

/-- C4 counterexample: as stated ("for every options, no result has
`score < minScore`") the claim is false, because the code only applies the
filter when `minScore > 0`.  With the default `minScore = 0` and a
candidate of (cosine) score `-1`, the returned result has
`score < minScore`. -/
theorem c4_counterexample :
    (search "q".toList 5 false 0 [hitScore (-1) "t".toList]).map ProcessedResult.score
        = [-1] ∧ ((-1 : ℚ) < 0) := by
  constructor
  · rfl
  · decide

/-- C4 (amended): whenever the `minScore` option is positive — the only
case in which `search` applies the filter — no returned result has
`score < minScore`. -/
theorem c4_minScore_filter (query : Str) (topK : Nat) (includeTextMatches : Bool)
    (minScore : ℚ) (hits : List QueryHit) (hpos : 0 < minScore) :
    ∀ r ∈ search query topK includeTextMatches minScore hits, minScore ≤ r.score := by
  intro r hr
  simp only [search] at hr
  rw [if_pos hpos] at hr
  have hr2 := List.mem_of_mem_take hr
  by_cases hitm : includeTextMatches = true
  · rw [if_pos hitm, List.mem_mergeSort] at hr2
    exact of_decide_eq_true (List.mem_filter.mp hr2).2
  · rw [if_neg hitm] at hr2
    exact of_decide_eq_true (List.mem_filter.mp hr2).2

/-- C4 witness: with `minScore = 1 > 0` and a single candidate of score 1,
the returned result indeed has score `≥ 1`. -/
theorem c4_minScore_filter_witness :
    (1 : ℚ) ≤ (processResult "q".toList false (hitScore 1 "t".toList)).score :=
  c4_minScore_filter "q".toList 5 false 1 [hitScore 1 "t".toList] (by norm_num)
    _ (List.mem_singleton.mpr rfl)

/-! ### C9 — the stored preview -/

/-- C9: every item metadata written by the batch loop has
`preview = text.substring(0, 150) + '...'` — the ellipsis is appended
unconditionally, also when the chunk text is 150 characters or shorter
(the witness exercises a 2-character chunk). -/
theorem c9_preview_ellipsis (embed : Str → List ℚ) (u : ExtractedUnit) (fp : Str) :
    ∀ (fuel : Nat) (chunks : List Chunk) (i0 : Nat) (id : Str) (v : List ℚ)
      (m : ItemMetadata),
      IndexEv.insert id v m ∈ processBatchesGo embed u fp fuel chunks i0 →
      m.preview = m.text.take 150 ++ "...".toList := by
  intro fuel
  induction fuel with
  | zero =>
    intro chunks i0 id v m h
    simp [processBatchesGo] at h
  | succ fuel ih =>
    intro chunks i0 id v m h
    simp only [processBatchesGo] at h
    by_cases hne : chunks.isEmpty
    · rw [if_pos hne] at h; simp at h
    · rw [if_neg hne] at h
      rcases List.mem_append.mp h with h1 | h2
      rcases List.mem_append.mp h1 with hb | hd
      · obtain ⟨p, _, hp⟩ := List.mem_map.mp hb
        obtain ⟨-, -, hm⟩ := IndexEv.insert.inj hp
        subst hm
        rfl
      · by_cases h5 : 5 < chunks.length
        · rw [if_pos h5] at hd
          exact absurd (List.mem_singleton.mp hd) (by simp)
        · rw [if_neg h5] at hd
          simp at hd
      · exact ih _ _ id v m h2

/-- C9 witness: a unit with the 2-character text `"hi"` produces one chunk
and one insert; its preview is the whole text with `"..."` appended. -/
theorem c9_preview_ellipsis_witness :
    (mkItemMetadata (textUnit "f.txt".toList "hi".toList) "p".toList 0
        ⟨"hi".toList, 0, 1⟩).preview =
      (mkItemMetadata (textUnit "f.txt".toList "hi".toList) "p".toList 0
        ⟨"hi".toList, 0, 1⟩).text.take 150 ++ "...".toList :=
  c9_preview_ellipsis (fun _ => []) (textUnit "f.txt".toList "hi".toList) "p".toList
    1 [⟨"hi".toList, 0, 1⟩] 0 (chunkId (textUnit "f.txt".toList "hi".toList) 0) []
    _ (by decide)

/-! ### C7 — inter-batch rate-limit delays -/

theorem countP_isDelay_insert_map (l : List (Nat × Chunk))
    (f : Nat × Chunk → Str) (g : Nat × Chunk → List ℚ)
    (h : Nat × Chunk → ItemMetadata) :
    (l.map (fun p => IndexEv.insert (f p) (g p) (h p))).countP IndexEv.isDelay = 0 := by
  refine List.countP_eq_zero.mpr ?_
  intro e he
  obtain ⟨p, -, hp⟩ := List.mem_map.mp he
  subst hp
  simp [IndexEv.isDelay]

theorem processBatchesGo_delay_count (embed : Str → List ℚ) (u : ExtractedUnit)
    (fp : Str) : ∀ (fuel : Nat) (rem : List Chunk) (i : Nat), rem.length ≤ fuel →
    (processBatchesGo embed u fp fuel rem i).countP IndexEv.isDelay =
      if rem.isEmpty then 0 else ceilDiv rem.length 5 - 1 := by
  intro fuel
  induction fuel with
  | zero =>
    intro rem i hlen
    have : rem = [] := List.length_eq_zero.mp (by omega)
    subst this
    rfl
  | succ fuel ih =>
    intro rem i hlen
    by_cases hne : rem.isEmpty
    · rw [List.isEmpty_iff.mp hne]
      simp [processBatchesGo_nil]
    · have hpos : 0 < rem.length := by
        cases rem with
        | nil => simp at hne
        | cons a l => simp
      simp only [processBatchesGo, if_neg hne, List.countP_append,
        countP_isDelay_insert_map]
      rw [ih (rem.drop 5) (i + 5) (by rw [List.length_drop]; omega)]
      by_cases h5 : 5 < rem.length
      · have hd5 : rem.drop 5 ≠ [] := by
          rw [Ne, List.drop_eq_nil_iff]
          omega
        have hd : (rem.drop 5).isEmpty = false := by
          cases hdd : rem.drop 5 with
          | nil => exact absurd hdd hd5
          | cons a l => rfl
        have hc1 : List.countP IndexEv.isDelay [IndexEv.delay 100] = 1 := rfl
        rw [if_pos h5, hc1, hd]
        simp only [Bool.false_eq_true, if_false, List.length_drop]
        have hceil : ceilDiv rem.length 5 = ceilDiv (rem.length - 5) 5 + 1 := by
          unfold ceilDiv
          have h2 : rem.length + 5 - 1 = (rem.length - 5 + 5 - 1) + 5 := by omega
          rw [h2, Nat.add_div_right _ (by norm_num)]
        have hge : 1 ≤ ceilDiv (rem.length - 5) 5 := by
          unfold ceilDiv
          rw [Nat.le_div_iff_mul_le (by norm_num)]
          omega
        omega
      · have hd : (rem.drop 5).isEmpty = true := by
          rw [List.isEmpty_iff, List.drop_eq_nil_iff]
          omega
        have hc0 : List.countP IndexEv.isDelay ([] : List IndexEv) = 0 := rfl
        rw [if_neg h5, hc0, hd]
        have hle : ceilDiv rem.length 5 = 1 := by
          unfold ceilDiv
          have hlow : 1 ≤ (rem.length + 5 - 1) / 5 := by
            rw [Nat.le_div_iff_mul_le (by norm_num)]
            omega
          have hhigh : (rem.length + 5 - 1) / 5 < 2 := by
            rw [Nat.div_lt_iff_lt_mul (by norm_num)]
            omega
          omega
        simp [hle]

theorem processBatchesGo_ne_nil (embed : Str → List ℚ) (u : ExtractedUnit)
    (fp : Str) : ∀ (fuel : Nat) (rem : List Chunk) (i : Nat), rem ≠ [] →
    rem.length ≤ fuel → processBatchesGo embed u fp fuel rem i ≠ [] := by
  intro fuel
  cases fuel with
  | zero =>
    intro rem i hne hlen
    exact absurd (List.length_eq_zero.mp (by omega)) hne
  | succ fuel =>
    intro rem i hne hlen
    have hne2 : rem.isEmpty = false := by
      cases rem with
      | nil => exact absurd rfl hne
      | cons a l => rfl
    simp only [processBatchesGo, hne2, Bool.false_eq_true, if_false]
    cases rem with
    | nil => exact absurd rfl hne
    | cons a l =>
      simp [List.enum_cons, List.append_eq_nil]

theorem processBatchesGo_last_insert (embed : Str → List ℚ) (u : ExtractedUnit)
    (fp : Str) : ∀ (fuel : Nat) (rem : List Chunk) (i : Nat), rem.length ≤ fuel →
    ∀ e, (processBatchesGo embed u fp fuel rem i).getLast? = some e →
      e.isDelay = false := by
  intro fuel
  induction fuel with
  | zero =>
    intro rem i hlen e he
    have : rem = [] := List.length_eq_zero.mp (by omega)
    subst this
    simp [processBatchesGo] at he
  | succ fuel ih =>
    intro rem i hlen e he
    by_cases hne : rem.isEmpty
    · rw [List.isEmpty_iff.mp hne, processBatchesGo_nil] at he
      simp at he
    · simp only [processBatchesGo, if_neg hne] at he
      by_cases h5 : 5 < rem.length
      · have hd : rem.drop 5 ≠ [] := by
          rw [Ne, List.drop_eq_nil_iff]
          omega
        have htail : processBatchesGo embed u fp fuel (rem.drop 5) (i + 5) ≠ [] :=
          processBatchesGo_ne_nil embed u fp fuel (rem.drop 5) (i + 5) hd
            (by rw [List.length_drop]; omega)
        rw [List.getLast?_append_of_ne_nil _ htail] at he
        exact ih _ _ (by rw [List.length_drop]; omega) e he
      · have hdrop : rem.drop 5 = [] := List.drop_eq_nil_iff.mpr (by omega)
        rw [if_neg h5, hdrop, processBatchesGo_nil, List.append_nil,
          List.append_nil] at he
        obtain ⟨hA, heq⟩ := List.mem_getLast?_eq_getLast (Option.mem_def.mpr he)
        have hmem : e ∈ (rem.take 5).enum.map (fun p =>
            IndexEv.insert (chunkId u (i + p.1)) (embed p.2.text)
              (mkItemMetadata u fp (i + p.1) p.2)) := heq ▸ List.getLast_mem hA
        obtain ⟨p, -, hp⟩ := List.mem_map.mp hmem
        subst hp
        rfl

/-- C7: for a chunk list of length `N > 0` (as produced for an extracted
unit), the batch loop of `indexDocument` issues exactly `ceil(N/5) - 1`
inter-batch delays, and the trace never ends with a delay (no delay after
the last batch). -/
theorem c7_rate_limit_delays (embed : Str → List ℚ) (u : ExtractedUnit) (fp : Str)
    (chunks : List Chunk) (hN : 0 < chunks.length) :
    (processBatchesGo embed u fp chunks.length chunks 0).countP IndexEv.isDelay
        = ceilDiv chunks.length 5 - 1 ∧
      ∀ e, (processBatchesGo embed u fp chunks.length chunks 0).getLast? = some e →
        e.isDelay = false := by
  constructor
  · rw [processBatchesGo_delay_count embed u fp chunks.length chunks 0 le_rfl]
    have : chunks.isEmpty = false := by
      cases chunks with
      | nil => simp at hN
      | cons a l => rfl
    rw [this]
    simp
  · exact processBatchesGo_last_insert embed u fp chunks.length chunks 0 le_rfl

/-! ### C10 — `getStats` swallows store listing errors -/

/-- C10: once `initialize()` has succeeded, any failure of
`index.listItems()` — whatever its message — is caught, and `getStats`
returns the zero-valued statistics with the engine's `indexPath` instead of
propagating the error. -/
theorem c10_getStats_swallows_list_errors (isInit : Bool)
    (createRes : Except StoreError Unit) (e : StoreError) (indexPath : Str)
    (hinit : engineInitialize isInit createRes = .ok ()) :
    getStats isInit createRes (.error e) indexPath = .ok ⟨0, 0, [], indexPath⟩ := by
  unfold getStats
  rw [hinit]

/-- C10 witness: an initialized engine whose store reports a missing index
still gets the zero statistics. -/
theorem c10_getStats_swallows_list_errors_witness :
    getStats true (.ok ()) (.error ⟨"Index does not exist".toList⟩)
        "./requirements-index".toList
      = .ok ⟨0, 0, [], "./requirements-index".toList⟩ :=
  c10_getStats_swallows_list_errors true (.ok ())
    ⟨"Index does not exist".toList⟩ "./requirements-index".toList rfl

/-- C7 witness: 6 chunks in two batches (5 + 1) produce exactly
`ceil(6/5) - 1 = 1` delay. -/
theorem c7_rate_limit_delays_witness :
    (processBatchesGo (fun _ => []) (textUnit "d.txt".toList "x".toList) "p".toList
        (List.replicate 6 (⟨"a".toList, 0, 1⟩ : Chunk)).length
        (List.replicate 6 (⟨"a".toList, 0, 1⟩ : Chunk)) 0).countP IndexEv.isDelay
      = ceilDiv (List.replicate 6 (⟨"a".toList, 0, 1⟩ : Chunk)).length 5 - 1 :=
  (c7_rate_limit_delays (fun _ => []) (textUnit "d.txt".toList "x".toList) "p".toList
    (List.replicate 6 (⟨"a".toList, 0, 1⟩ : Chunk)) (by decide)).1

/-! ### C6 — the lexical match analysis of `search` -/

/-- C6: with `includeTextMatches` set, `textMatches` is exactly the list of
whitespace-split (lowercased) query tokens of length `> 2` occurring
case-insensitively as substrings of the chunk text, in token order;
`hasDirectMatch` holds iff at least one token matched; `textMatchScore`
divides the number of matches by the unfiltered count of query tokens.  In
particular the query `"user authentication"` against a chunk containing
both words yields `textMatches = ["user", "authentication"]` and
`textMatchScore = 1`. -/
theorem c6_text_match_analysis :
    (∀ (query : Str) (r : QueryHit),
      ((processResult query true r).textMatches =
        (jsSplitWs (jsToLower query)).filter
          (fun w => decide (2 < w.length ∧ w <:+: jsToLower r.item.metadata.text))) ∧
      (∀ w, w ∈ (processResult query true r).textMatches ↔
        w ∈ jsSplitWs (jsToLower query) ∧ 2 < w.length ∧
          w <:+: jsToLower r.item.metadata.text) ∧
      ((processResult query true r).hasDirectMatch = true ↔
        ∃ w ∈ jsSplitWs (jsToLower query), 2 < w.length ∧
          w <:+: jsToLower r.item.metadata.text) ∧
      ((processResult query true r).textMatchScore =
        ((processResult query true r).textMatches.length : ℚ) /
          ((jsSplitWs query).length : ℚ))) ∧
    ((processResult uaQuery true uaHit).textMatches =
        ["user".toList, "authentication".toList] ∧
      (processResult uaQuery true uaHit).textMatchScore = 1) := by
  constructor
  · intro query r
    refine ⟨rfl, ?_, ?_, rfl⟩
    · intro w
      rw [show (processResult query true r).textMatches =
        (jsSplitWs (jsToLower query)).filter
          (fun w => decide (2 < w.length ∧ w <:+: jsToLower r.item.metadata.text)) from rfl]
      rw [List.mem_filter, decide_eq_true_eq]
    · rw [show (processResult query true r).hasDirectMatch =
        !((jsSplitWs (jsToLower query)).filter
          (fun w => decide (2 < w.length ∧ w <:+: jsToLower r.item.metadata.text))).isEmpty
        from rfl]
      rw [Bool.not_eq_eq_eq_not, Bool.not_true, Bool.eq_false_iff,
        Ne, List.isEmpty_iff, List.filter_eq_nil_iff]
      push_neg
      constructor
      · rintro ⟨w, hw, hp⟩
        exact ⟨w, hw, of_decide_eq_true hp⟩
      · rintro ⟨w, hw, hp⟩
        exact ⟨w, hw, by simpa using hp⟩
  · constructor
    · decide
    · have h1 : (processResult uaQuery true uaHit).textMatchScore =
          ((processResult uaQuery true uaHit).textMatches.length : ℚ) /
            ((jsSplitWs uaQuery).length : ℚ) := rfl
      have h2 : (processResult uaQuery true uaHit).textMatches.length = 2 := by decide
      have h3 : (jsSplitWs uaQuery).length = 2 := by decide
      rw [h1, h2, h3]
      norm_num

/-- C6 witness: the spec's example, obtained from the theorem. -/
theorem c6_text_match_analysis_witness :
    (processResult uaQuery true uaHit).textMatches =
        ["user".toList, "authentication".toList] ∧
      (processResult uaQuery true uaHit).textMatchScore = 1 :=
  c6_text_match_analysis.2

/-! ### C5 — the hybrid ordering -/

/-- Propositional reading of the comparator. -/
theorem resultLe_eq_true_iff (a b : ProcessedResult) :
    resultLe a b = true ↔
      (if a.hasDirectMatch = b.hasDirectMatch then
        (if a.textMatchScore = b.textMatchScore then b.score ≤ a.score
         else b.textMatchScore < a.textMatchScore)
       else a.hasDirectMatch = true) := by
  unfold resultLe
  by_cases hab : a.hasDirectMatch = b.hasDirectMatch
  · rw [if_pos hab, if_pos hab]
    by_cases ht : a.textMatchScore = b.textMatchScore
    · rw [if_pos ht, if_pos ht, decide_eq_true_eq]
    · rw [if_neg ht, if_neg ht, decide_eq_true_eq]
  · rw [if_neg hab, if_neg hab]

theorem lexQ_trans {t1 t2 t3 s1 s2 s3 : ℚ}
    (h1 : if t1 = t2 then s2 ≤ s1 else t2 < t1)
    (h2 : if t2 = t3 then s3 ≤ s2 else t3 < t2) :
    if t1 = t3 then s3 ≤ s1 else t3 < t1 := by
  by_cases h12 : t1 = t2
  · by_cases h23 : t2 = t3
    · have h13 : t1 = t3 := h12.trans h23
      rw [if_pos h12] at h1
      rw [if_pos h23] at h2
      rw [if_pos h13]
      exact le_trans h2 h1
    · have h13 : t1 ≠ t3 := by rw [h12]; exact h23
      rw [if_neg h23] at h2
      rw [if_neg h13, h12]
      exact h2
  · by_cases h23 : t2 = t3
    · have h13 : t1 ≠ t3 := by rw [← h23]; exact h12
      rw [if_neg h12] at h1
      rw [if_neg h13, ← h23]
      exact h1
    · rw [if_neg h12] at h1
      rw [if_neg h23] at h2
      have h13 : t1 ≠ t3 := by
        intro hh
        rw [hh] at h1
        exact absurd (lt_trans h2 h1) (lt_irrefl t3)
      rw [if_neg h13]
      exact lt_trans h2 h1

theorem resultLe_trans (a b c : ProcessedResult) (h1 : resultLe a b = true)
    (h2 : resultLe b c = true) : resultLe a c = true := by
  rw [resultLe_eq_true_iff] at h1 h2 ⊢
  by_cases hab : a.hasDirectMatch = b.hasDirectMatch
  · rw [if_pos hab] at h1
    by_cases hbc : b.hasDirectMatch = c.hasDirectMatch
    · rw [if_pos hbc] at h2
      rw [if_pos (hab.trans hbc)]
      exact lexQ_trans h1 h2
    · rw [if_neg hbc] at h2
      have hac : a.hasDirectMatch ≠ c.hasDirectMatch := by rw [hab]; exact hbc
      rw [if_neg hac, hab]
      exact h2
  · rw [if_neg hab] at h1
    by_cases hbc : b.hasDirectMatch = c.hasDirectMatch
    · have hac : a.hasDirectMatch ≠ c.hasDirectMatch :=
        fun h => hab (h.trans hbc.symm)
      rw [if_neg hac]
      exact h1
    · rw [if_neg hbc] at h2
      exact absurd (h1.trans h2.symm) hab

theorem resultLe_total (a b : ProcessedResult) :
    (resultLe a b || resultLe b a) = true := by
  rw [Bool.or_eq_true, resultLe_eq_true_iff, resultLe_eq_true_iff]
  by_cases hab : a.hasDirectMatch = b.hasDirectMatch
  · rw [if_pos hab, if_pos hab.symm]
    by_cases ht : a.textMatchScore = b.textMatchScore
    · rw [if_pos ht, if_pos ht.symm]
      exact (le_total b.score a.score)
    · rw [if_neg ht, if_neg (Ne.symm ht)]
      exact (Ne.symm ht).lt_or_lt
  · rw [if_neg hab, if_neg (Ne.symm hab)]
    cases ha : a.hasDirectMatch
    · cases hb : b.hasDirectMatch
      · exact absurd (ha.trans hb.symm) hab
      · exact Or.inr rfl
    · exact Or.inl rfl

theorem resultLe_direct_match (a b : ProcessedResult) (h : resultLe a b = true) :
    b.hasDirectMatch = true → a.hasDirectMatch = true := by
  intro hb
  rw [resultLe_eq_true_iff] at h
  by_cases hab : a.hasDirectMatch = b.hasDirectMatch
  · rw [hab]; exact hb
  · rw [if_neg hab] at h; exact h

/-- C5: with `includeTextMatches`, the output of `search` is ordered by the
composite comparator (direct-match flag descending, then `textMatchScore`
descending, then raw score descending); consequently a result with
`hasDirectMatch = true` never appears after one with
`hasDirectMatch = false`.  Without `includeTextMatches`, the output is a
sublist (order preserved) of the processed candidates in the store's
native order. -/
theorem c5_hybrid_ordering (query : Str) (topK : Nat) (minScore : ℚ)
    (hits : List QueryHit) :
    ((search query topK true minScore hits).Pairwise
        (fun a b => resultLe a b = true)) ∧
      ((search query topK true minScore hits).Pairwise
        (fun a b => b.hasDirectMatch = true → a.hasDirectMatch = true)) ∧
      ((search query topK false minScore hits).Sublist
        (hits.map (processResult query false))) := by
  have hsorted : (search query topK true minScore hits).Pairwise
      (fun a b => resultLe a b = true) := by
    simp only [search, reduceIte]
    exact List.Pairwise.sublist (List.take_sublist _ _)
      (List.sorted_mergeSort resultLe_trans resultLe_total _)
  refine ⟨hsorted, hsorted.imp ?_, ?_⟩
  · intro a b hab
    exact resultLe_direct_match a b hab
  · simp only [search, Bool.false_eq_true, if_false]
    refine (List.take_sublist _ _).trans ?_
    by_cases hm : 0 < minScore
    · rw [if_pos hm]
      exact List.filter_sublist _
    · rw [if_neg hm]

/-! ### C8 — chunk IDs: decimal digits -/

theorem natDigitsGo_fuel : ∀ (f1 f2 n : Nat), n < f1 → n < f2 →
    natDigitsGo f1 n = natDigitsGo f2 n := by
  intro f1
  induction f1 with
  | zero => intro f2 n h1 _; omega
  | succ f1 ih =>
    intro f2 n h1 h2
    cases f2 with
    | zero => omega
    | succ f2 =>
      simp only [natDigitsGo]
      by_cases hn : n < 10
      · rw [if_pos hn, if_pos hn]
      · rw [if_neg hn, if_neg hn]
        have hdiv : n / 10 < n := Nat.div_lt_self (by omega) (by omega)
        rw [ih f2 (n / 10) (by omega) (by omega)]

theorem natDigits_eq (n : Nat) :
    natDigits n = if n < 10 then [Char.ofNat (48 + n)]
      else natDigits (n / 10) ++ [Char.ofNat (48 + n % 10)] := by
  have hstep : natDigitsGo (n + 1) n = if n < 10 then [Char.ofNat (48 + n)]
      else natDigitsGo n (n / 10) ++ [Char.ofNat (48 + n % 10)] := rfl
  by_cases hn : n < 10
  · rw [if_pos hn]
    show natDigitsGo (n + 1) n = _
    rw [hstep, if_pos hn]
  · rw [if_neg hn]
    show natDigitsGo (n + 1) n = natDigitsGo (n / 10 + 1) (n / 10) ++ _
    rw [hstep, if_neg hn]
    have hdiv : n / 10 < n := Nat.div_lt_self (by omega) (by omega)
    rw [natDigitsGo_fuel n (n / 10 + 1) (n / 10) (by omega) (by omega)]

theorem digitChar_isDigit (d : Nat) (hd : d < 10) :
    (Char.ofNat (48 + d)).isDigit = true := by
  interval_cases d <;> decide

theorem digitChar_toNat (d : Nat) (hd : d < 10) :
    (Char.ofNat (48 + d)).toNat = 48 + d := by
  interval_cases d <;> decide

theorem natDigits_all_digit (n : Nat) : ∀ c ∈ natDigits n, c.isDigit = true := by
  induction n using Nat.strong_induction_on with
  | _ n ih =>
    rw [natDigits_eq]
    by_cases hn : n < 10
    · rw [if_pos hn]
      intro c hc
      rw [List.mem_singleton.mp hc]
      exact digitChar_isDigit n hn
    · rw [if_neg hn]
      intro c hc
      rcases List.mem_append.mp hc with h | h
      · exact ih (n / 10) (Nat.div_lt_self (by omega) (by omega)) c h
      · rw [List.mem_singleton.mp h]
        exact digitChar_isDigit (n % 10) (Nat.mod_lt n (by omega))

theorem natDigits_ne_nil (n : Nat) : natDigits n ≠ [] := by
  rw [natDigits_eq]
  by_cases hn : n < 10
  · rw [if_pos hn]; simp
  · rw [if_neg hn]; simp

theorem digitsVal_append_singleton (l : List Char) (c : Char) :
    digitsVal (l ++ [c]) = 10 * digitsVal l + (c.toNat - 48) := by
  unfold digitsVal
  rw [List.foldl_append]
  rfl

theorem digitsVal_natDigits (n : Nat) : digitsVal (natDigits n) = n := by
  induction n using Nat.strong_induction_on with
  | _ n ih =>
    rw [natDigits_eq]
    by_cases hn : n < 10
    · rw [if_pos hn]
      show 10 * 0 + ((Char.ofNat (48 + n)).toNat - 48) = n
      rw [digitChar_toNat n hn]
      omega
    · rw [if_neg hn, digitsVal_append_singleton,
        ih (n / 10) (Nat.div_lt_self (by omega) (by omega)),
        digitChar_toNat (n % 10) (Nat.mod_lt n (by omega))]
      omega

theorem natDigits_inj {a b : Nat} (h : natDigits a = natDigits b) : a = b := by
  have := digitsVal_natDigits a
  rw [h, digitsVal_natDigits] at this
  omega

/-! ### C8 — cancellation of digit runs before a non-digit anchor -/

theorem digits_anchor_cancel : ∀ (u w : List Char) (c c2 : Char) (v z : List Char),
    (∀ d ∈ u, d.isDigit = true) → (∀ d ∈ w, d.isDigit = true) →
    c.isDigit = false → c2.isDigit = false →
    u ++ c :: v = w ++ c2 :: z → u = w ∧ c = c2 ∧ v = z := by
  intro u
  induction u with
  | nil =>
    intro w c c2 v z _ hw hc hc2 heq
    cases w with
    | nil =>
      obtain ⟨h1, h2⟩ := List.cons.inj heq
      exact ⟨rfl, h1, h2⟩
    | cons d w2 =>
      obtain ⟨h1, -⟩ := List.cons.inj heq
      rw [← h1] at hw
      have := hw c (by simp)
      rw [this] at hc
      cases hc
  | cons d u2 ih =>
    intro w c c2 v z hu hw hc hc2 heq
    cases w with
    | nil =>
      obtain ⟨h1, -⟩ := List.cons.inj heq
      rw [h1] at hu
      have := hu c2 (by simp)
      rw [this] at hc2
      cases hc2
    | cons e w2 =>
      obtain ⟨h1, h2⟩ := List.cons.inj heq
      obtain ⟨ha, hb, hcc⟩ := ih w2 c c2 v z
        (fun x hx => hu x (List.mem_cons_of_mem d hx))
        (fun x hx => hw x (List.mem_cons_of_mem e hx)) hc hc2 h2
      exact ⟨by rw [h1, ha], hb, hcc⟩

/-! ### C8 — injectivity of the chunk ID encoding -/

theorem idCat_inj (f s1 s2 : Str) (r1 r2 i1 i2 : Nat)
    (h : f ++ "_".toList ++ s1 ++ "_row".toList ++ natDigits r1 ++
          "_chunk".toList ++ natDigits i1
       = f ++ "_".toList ++ s2 ++ "_row".toList ++ natDigits r2 ++
          "_chunk".toList ++ natDigits i2) :
    s1 = s2 ∧ r1 = r2 ∧ i1 = i2 := by
  have h' := congrArg List.reverse h
  have hck : "_chunk".toList.reverse = ['k', 'n', 'u', 'h', 'c', '_'] := by decide
  have hrw : "_row".toList.reverse = ['w', 'o', 'r', '_'] := by decide
  have hus : "_".toList.reverse = ['_'] := by decide
  simp only [List.reverse_append, hck, hrw, hus, List.cons_append, List.nil_append,
    List.append_assoc] at h'
  have hdig : ∀ (n : Nat) (d : Char), d ∈ (natDigits n).reverse → d.isDigit = true :=
    fun n d hd => natDigits_all_digit n d (List.mem_reverse.mp hd)
  obtain ⟨hi, -, h2⟩ := digits_anchor_cancel (natDigits i1).reverse
    (natDigits i2).reverse 'k' 'k' _ _ (hdig i1) (hdig i2) (by decide) (by decide) h'
  have hi12 : i1 = i2 := natDigits_inj (List.reverse_inj.mp hi)
  simp only [List.cons.injEq, true_and] at h2
  obtain ⟨hr, -, h3⟩ := digits_anchor_cancel (natDigits r1).reverse
    (natDigits r2).reverse 'w' 'w' _ _ (hdig r1) (hdig r2) (by decide) (by decide) h2
  have hr12 : r1 = r2 := natDigits_inj (List.reverse_inj.mp hr)
  simp only [List.cons.injEq, true_and] at h3
  have hlen := congrArg List.length h3
  simp only [List.length_append, List.length_cons] at hlen
  obtain ⟨hs, -⟩ := List.append_inj h3 (by omega)
  exact ⟨List.reverse_inj.mp hs, hr12, hi12⟩

theorem jsTruthyStr_some_ne (s : Str) (hne : s ≠ []) :
    jsTruthyStr (some s) = true := by
  unfold jsTruthyStr
  cases s with
  | nil => exact absurd rfl hne
  | cons a t => rfl

theorem chunkId_sheet_eq (u : ExtractedUnit) (i : Nat) (s : Str)
    (hs : u.sheet = some s) (hne : s ≠ []) :
    chunkId u i = u.fileName ++ "_".toList ++ s ++ "_row".toList ++
      optNatStr u.row ++ "_chunk".toList ++ natDigits i := by
  unfold chunkId
  rw [hs, if_pos (jsTruthyStr_some_ne s hne)]
  rfl

theorem chunkId_none_eq (u : ExtractedUnit) (i : Nat) (hn : u.sheet = none) :
    chunkId u i = u.fileName ++ "_chunk_".toList ++ natDigits i := by
  unfold chunkId
  rw [hn]
  rfl

theorem chunkId_index_inj (u : ExtractedUnit) (i1 i2 : Nat)
    (h : chunkId u i1 = chunkId u i2) : i1 = i2 := by
  unfold chunkId at h
  by_cases ht : jsTruthyStr u.sheet = true
  · rw [if_pos ht, if_pos ht] at h
    exact natDigits_inj (List.append_cancel_left h)
  · rw [if_neg ht, if_neg ht] at h
    exact natDigits_inj (List.append_cancel_left h)

theorem chunkId_sheet_pair_inj (u1 u2 : ExtractedUnit) (i1 i2 : Nat)
    (s1 s2 : Str) (r1 r2 : Nat)
    (hf : u1.fileName = u2.fileName)
    (hs1 : u1.sheet = some s1) (hne1 : s1 ≠ [])
    (hs2 : u2.sheet = some s2) (hne2 : s2 ≠ [])
    (hr1 : u1.row = some r1) (hr2 : u2.row = some r2)
    (h : chunkId u1 i1 = chunkId u2 i2) : s1 = s2 ∧ r1 = r2 ∧ i1 = i2 := by
  rw [chunkId_sheet_eq u1 i1 s1 hs1 hne1, chunkId_sheet_eq u2 i2 s2 hs2 hne2,
    hr1, hr2, hf] at h
  exact idCat_inj u2.fileName s1 s2 r1 r2 i1 i2 h

/-! ### C8 — the IDs a run emits -/

theorem filterMap_some_comp {α β : Type} (g : α → β) (l : List α) :
    l.filterMap (fun x => some (g x)) = l.map g := by
  induction l with
  | nil => rfl
  | cons a t ih => simp [List.filterMap_cons, ih]

theorem eventIds_append (a b : List IndexEv) :
    eventIds (a ++ b) = eventIds a ++ eventIds b := by
  unfold eventIds
  exact List.filterMap_append a b _

theorem eventIds_processBatchesGo (embed : Str → List ℚ) (u : ExtractedUnit)
    (fp : Str) : ∀ (fuel : Nat) (rem : List Chunk) (i : Nat), rem.length ≤ fuel →
    eventIds (processBatchesGo embed u fp fuel rem i) =
      (List.range rem.length).map (fun j => chunkId u (i + j)) := by
  intro fuel
  induction fuel with
  | zero =>
    intro rem i h
    have hnil : rem = [] := List.length_eq_zero.mp (by omega)
    subst hnil
    rfl
  | succ fuel ih =>
    intro rem i h
    by_cases hne : rem.isEmpty
    · rw [List.isEmpty_iff.mp hne, processBatchesGo_nil]
      rfl
    · simp only [processBatchesGo, if_neg hne]
      rw [eventIds_append, eventIds_append]
      have hD : eventIds (if 5 < rem.length then [IndexEv.delay 100] else []) = [] := by
        by_cases h5 : 5 < rem.length
        · rw [if_pos h5]; rfl
        · rw [if_neg h5]; rfl
      rw [hD]
      have hA : eventIds ((rem.take 5).enum.map (fun p =>
          IndexEv.insert (chunkId u (i + p.1)) (embed p.2.text)
            (mkItemMetadata u fp (i + p.1) p.2))) =
          (List.range (min 5 rem.length)).map (fun j => chunkId u (i + j)) := by
        unfold eventIds
        rw [List.filterMap_map]
        rw [show ((fun e => match e with
            | IndexEv.insert id _ _ => some id
            | IndexEv.delay _ => none) ∘ (fun p : Nat × Chunk =>
            IndexEv.insert (chunkId u (i + p.1)) (embed p.2.text)
              (mkItemMetadata u fp (i + p.1) p.2)))
          = (fun p : Nat × Chunk => some (chunkId u (i + p.1))) from rfl]
        rw [filterMap_some_comp]
        rw [show (fun p : Nat × Chunk => chunkId u (i + p.1))
          = ((fun j => chunkId u (i + j)) ∘ Prod.fst) from rfl]
        rw [← List.map_map, List.enum_map_fst, List.length_take]
      rw [hA, List.append_nil]
      rw [ih (rem.drop 5) (i + 5) (by rw [List.length_drop]; omega), List.length_drop]
      have hsplit : (List.range rem.length).map (fun j => chunkId u (i + j))
          = (List.range (min 5 rem.length)).map (fun j => chunkId u (i + j)) ++
            (List.range (rem.length - 5)).map
              (fun x => chunkId u (i + (min 5 rem.length + x))) := by
        conv_lhs => rw [show rem.length = min 5 rem.length + (rem.length - 5) from by omega]
        rw [List.range_add, List.map_append, List.map_map]
        rfl
      rw [hsplit]
      congr 1
      apply List.map_congr_left
      intro x hx
      have hx5 : x < rem.length - 5 := List.mem_range.mp hx
      congr 1
      omega

theorem eventIds_indexUnitEvents (embed : Str → List ℚ) (fp : Str)
    (u : ExtractedUnit) :
    eventIds (indexUnitEvents embed fp u) =
      (List.range (splitIntoChunks u.text 500 50).length).map (chunkId u) := by
  unfold indexUnitEvents
  rw [eventIds_processBatchesGo embed u fp _ _ 0 le_rfl]
  apply List.map_congr_left
  intro j _
  rw [Nat.zero_add]

theorem eventIds_indexDocumentEvents (embed : Str → List ℚ) (fp : Str)
    (units : List ExtractedUnit) :
    eventIds (indexDocumentEvents embed fp units) =
      units.flatMap (fun u =>
        (List.range (splitIntoChunks u.text 500 50).length).map (chunkId u)) := by
  induction units with
  | nil => rfl
  | cons u us ih =>
    unfold indexDocumentEvents at ih ⊢
    rw [List.flatMap_cons, List.flatMap_cons, eventIds_append, ih,
      eventIds_indexUnitEvents]

theorem unit_ids_nodup (u : ExtractedUnit) (n : Nat) :
    ((List.range n).map (chunkId u)).Nodup :=
  List.Nodup.map (fun a b => chunkId_index_inj u a b) (List.nodup_range n)

/-! ### C8 — facts about the Excel extractor -/

theorem extractRowsGo_facts (name : Str) : ∀ (rows : List (List (Option Str)))
    (start : Nat),
    (∀ x ∈ extractRowsGo name rows start, x.sheet = name ∧ start < x.row) ∧
    (extractRowsGo name rows start).Pairwise (fun a b => a.row < b.row) := by
  intro rows
  induction rows with
  | nil => intro start; exact ⟨by simp [extractRowsGo], by simp [extractRowsGo]⟩
  | cons cells rest ih =>
    intro start
    obtain ⟨ihmem, ihpw⟩ := ih (start + 1)
    simp only [extractRowsGo]
    by_cases he : (cells.reduceOption).isEmpty = true
    · rw [if_pos he, List.nil_append]
      refine ⟨fun x hx => ?_, ihpw⟩
      obtain ⟨h1, h2⟩ := ihmem x hx
      exact ⟨h1, by omega⟩
    · rw [if_neg he, List.singleton_append]
      constructor
      · intro x hx
        rcases List.mem_cons.mp hx with h1 | h2
        · subst h1
          exact ⟨rfl, Nat.lt_succ_self start⟩
        · obtain ⟨h1, h2⟩ := ihmem x h2
          exact ⟨h1, by omega⟩
      · rw [List.pairwise_cons]
        refine ⟨fun b hb => ?_, ihpw⟩
        obtain ⟨-, h2⟩ := ihmem b hb
        exact h2

theorem extractTextFromExcel_pairwise (wb : List (Str × Nat × List (List (Option Str))))
    (hnames : (wb.map Prod.fst).Nodup) :
    (extractTextFromExcel wb).Pairwise
      (fun a b => a.sheet ≠ b.sheet ∨ a.row ≠ b.row) := by
  unfold extractTextFromExcel
  rw [List.pairwise_flatMap]
  constructor
  · intro sh _
    exact ((extractRowsGo_facts sh.1 sh.2.2 sh.2.1).2).imp (fun h => Or.inr (by omega))
  · have hp : wb.Pairwise (fun a b => a.1 ≠ b.1) := List.pairwise_map.mp hnames
    refine hp.imp ?_
    intro p q hpq x hx y hy
    obtain ⟨hx1, -⟩ := (extractRowsGo_facts p.1 p.2.2 p.2.1).1 x hx
    obtain ⟨hy1, -⟩ := (extractRowsGo_facts q.1 q.2.2 q.2.1).1 y hy
    exact Or.inl (by rw [hx1, hy1]; exact hpq)

theorem extractTextFromExcel_sheet_mem (wb : List (Str × Nat × List (List (Option Str))))
    (a : ExcelRow) (ha : a ∈ extractTextFromExcel wb) : a.sheet ∈ wb.map Prod.fst := by
  unfold extractTextFromExcel at ha
  obtain ⟨sh, hsh, hmem⟩ := List.mem_flatMap.mp ha
  obtain ⟨h1, -⟩ := (extractRowsGo_facts sh.1 sh.2.2 sh.2.1).1 a hmem
  rw [h1]
  exact List.mem_map.mpr ⟨sh, hsh, rfl⟩

/-! ### C8 — main results -/

/-- C8 counterexample: the branch in the ID builder tests JS *truthiness* of
`data.sheet`, not presence.  A workbook whose (single) sheet has the empty
name yields units with `sheet` set to `some ""`, yet their IDs take the
no-sheet format `"<fileName>_chunk_<i>"` — contradicting the claimed format
— and two rows of that sheet then emit the *same* ID `"f.xlsx_chunk_0"`,
so the run's IDs collide. -/
theorem c8_counterexample :
    (extractTextFromExcel [([], 0, [[some "a".toList], [some "b".toList]])]).map
        (excelUnit "f.xlsx".toList) =
      [⟨"a".toList, "f.xlsx".toList, "excel".toList, some [], some 1, some "1:1".toList⟩,
       ⟨"b".toList, "f.xlsx".toList, "excel".toList, some [], some 2, some "2:2".toList⟩] ∧
    chunkId ⟨"a".toList, "f.xlsx".toList, "excel".toList, some [], some 1,
        some "1:1".toList⟩ 0 = "f.xlsx_chunk_0".toList ∧
    ¬ (eventIds (indexDocumentEvents (fun _ => []) "p".toList
        ((extractTextFromExcel [([], 0, [[some "a".toList], [some "b".toList]])]).map
          (excelUnit "f.xlsx".toList)))).Nodup := by
  refine ⟨by decide, by decide, by decide⟩

/-- C8 (amended: "sheet is set" must be read as "set to a *nonempty* string"
— JS truthiness — and the no-collision guarantee needs the workbook's sheet
names pairwise distinct and nonempty, which the Excel file format
guarantees): the ID is `"<fileName>_<sheet>_row<row>_chunk<i>"` for a unit
with a nonempty sheet and `"<fileName>_chunk_<i>"` for a unit without one;
a single indexing run over the units extracted from one Excel file with
distinct nonempty sheet names, or over the single unit of any other file,
never emits two colliding IDs. -/
theorem c8_chunk_ids :
    (∀ (u : ExtractedUnit) (i : Nat) (s : Str), u.sheet = some s → s ≠ [] →
      chunkId u i = u.fileName ++ "_".toList ++ s ++ "_row".toList ++
        optNatStr u.row ++ "_chunk".toList ++ natDigits i) ∧
    (∀ (u : ExtractedUnit) (i : Nat), u.sheet = none →
      chunkId u i = u.fileName ++ "_chunk_".toList ++ natDigits i) ∧
    (∀ (embed : Str → List ℚ) (fp fileName : Str)
      (wb : List (Str × Nat × List (List (Option Str)))),
      (wb.map Prod.fst).Nodup → (∀ nm ∈ wb.map Prod.fst, nm ≠ []) →
      (eventIds (indexDocumentEvents embed fp
        ((extractTextFromExcel wb).map (excelUnit fileName)))).Nodup) ∧
    (∀ (embed : Str → List ℚ) (fp : Str) (u : ExtractedUnit),
      (eventIds (indexDocumentEvents embed fp [u])).Nodup) := by
  refine ⟨fun u i s hs hne => chunkId_sheet_eq u i s hs hne,
    fun u i hn => chunkId_none_eq u i hn, ?_, ?_⟩
  · intro embed fp fileName wb hnames hnonempty
    rw [eventIds_indexDocumentEvents, List.nodup_flatMap]
    constructor
    · intro u _
      exact unit_ids_nodup u _
    · rw [List.pairwise_map]
      refine List.Pairwise.imp_of_mem ?_ (extractTextFromExcel_pairwise wb hnames)
      intro a b ha hb hab x hx1 hx2
      obtain ⟨i1, -, hxa⟩ := List.mem_map.mp hx1
      obtain ⟨i2, -, hxb⟩ := List.mem_map.mp hx2
      have heq : chunkId (excelUnit fileName a) i1
          = chunkId (excelUnit fileName b) i2 := by rw [hxa, hxb]
      have hanem : a.sheet ≠ [] :=
        hnonempty a.sheet (extractTextFromExcel_sheet_mem wb a ha)
      have hbnem : b.sheet ≠ [] :=
        hnonempty b.sheet (extractTextFromExcel_sheet_mem wb b hb)
      obtain ⟨hseq, hreq, -⟩ := chunkId_sheet_pair_inj (excelUnit fileName a)
        (excelUnit fileName b) i1 i2 a.sheet b.sheet a.row b.row rfl rfl hanem
        rfl hbnem rfl rfl heq
      rcases hab with h | h
      · exact h hseq
      · exact h hreq
  · intro embed fp u
    rw [eventIds_indexDocumentEvents]
    rw [show ([u].flatMap (fun v =>
        (List.range (splitIntoChunks v.text 500 50).length).map (chunkId v)))
      = (List.range (splitIntoChunks u.text 500 50).length).map (chunkId u) from by simp]
    exact unit_ids_nodup u _

/-- C8 witness: a unit of sheet `"S1"`, row 4 gets the claimed sheet-format
ID at chunk index 2, and a two-sheet workbook with distinct nonempty names
emits collision-free IDs. -/
theorem c8_chunk_ids_witness :
    chunkId ⟨"x".toList, "f.xlsx".toList, "excel".toList, some "S1".toList,
        some 4, none⟩ 2
      = "f.xlsx".toList ++ "_".toList ++ "S1".toList ++ "_row".toList ++
        optNatStr (some 4) ++ "_chunk".toList ++ natDigits 2 ∧
    (eventIds (indexDocumentEvents (fun _ => []) "p".toList
      ((extractTextFromExcel
        [("S1".toList, 0, [[some "a".toList]]), ("S2".toList, 0, [[some "b".toList]])]).map
        (excelUnit "f.xlsx".toList)))).Nodup :=
  ⟨c8_chunk_ids.1 _ 2 "S1".toList rfl (by decide),
   c8_chunk_ids.2.2.1 (fun _ => []) "p".toList "f.xlsx".toList _ (by decide) (by decide)⟩
